import Mathlib

/-!
Shallow embedding of `src/matriz_buscaminas.rs` (Taller-Buscaminas).

The program parses a byte array describing a minesweeper board (`*` mines,
`·`/`.` empty cells, `\n` row separators), validates the rectangular shape,
counts the mines adjacent to every empty cell, and renders the board.

Modelling conventions:
- Rust byte slices `&[u8]` become `List Nat` (the code only ever compares
  bytes against the literals 42 `*`, 46 `.`, 194/183 the two UTF-8 bytes of
  `·`, 10 `\n`, 13 `\r`).
- Rust `i32` counters become `Int`.  The source arithmetic cannot overflow
  on inputs small enough to return normally (`i32` overflow panics in the
  source's debug builds), so no `% 2^32` wrapping is modelled.
- Lean's `Int` division/modulo is Euclidean while Rust truncates toward
  zero; every reachable call (`obtener_coordenadas`) has a nonnegative
  dividend and positive divisor, where the two conventions coincide.
- `Vec<i32>` indexing `self.valores[i]` panics when out of bounds in Rust;
  it is modelled with `List.getD _ _ 0` / `List.set` (which default / no-op
  out of bounds).  Claim C10 proves every reachable access is in bounds, so
  the divergence is confined to unreachable states.
- `&mut self` methods become functions `MatrizBuscaminas → ... →
  MatrizBuscaminas`; printing methods return the emitted text instead of
  writing to stdout.
-/

/-- Board structure from the source: `valores` row-major cell values
(`-1` mine, otherwise adjacent-mine count), `columnas`, `filas`. -/
structure MatrizBuscaminas where
  valores : List Int
  columnas : Int
  filas : Int
deriving DecidableEq

/-- Byte of the character `*` (`ASTERISCO_BYTE` in the source). -/
def ASTERISCO_BYTE : Nat := 42

/-- First UTF-8 byte of `·` (`INTERDOT_FIRST_BYTE`). -/
def INTERDOT_FIRST_BYTE : Nat := 194

/-- Second UTF-8 byte of `·` (`INTERDOT_SECOND_BYTE`). -/
def INTERDOT_SECOND_BYTE : Nat := 183

/-- Byte of the character `.` (`DOT_BYTE`). -/
def DOT_BYTE : Nat := 46

/-- Board returned by `MatrizBuscaminas::new()`. -/
def matrizNueva : MatrizBuscaminas :=
  { valores := List.replicate 0 0, columnas := 0, filas := 0 }

/-- Loop of `contar_columnas`: accumulate symbol bytes, break at the first
newline. -/
def contarColumnasGo : List Nat → Int → Int
  | [], columnas => columnas
  | b :: rest, columnas =>
    if b = 10 then columnas
    else if b = INTERDOT_FIRST_BYTE ∨ b = ASTERISCO_BYTE ∨ b = DOT_BYTE then
      contarColumnasGo rest (columnas + 1)
    else contarColumnasGo rest columnas

/-- Source `contar_columnas`: number of symbol bytes before the first
newline. -/
def contar_columnas (bytes : List Nat) : Int := contarColumnasGo bytes 0

/-- Loop of `validar_mapa`: per-line symbol counter, reset and checked
against `columnas` at each newline and once more at the end of the input. -/
def validarMapaGo (columnas : Int) : List Nat → Int → Bool
  | [], contador => decide (contador = columnas)
  | b :: rest, contador =>
    if b = 10 then
      if contador ≠ columnas then false else validarMapaGo columnas rest 0
    else if b = INTERDOT_FIRST_BYTE ∨ b = ASTERISCO_BYTE ∨ b = DOT_BYTE then
      validarMapaGo columnas rest (contador + 1)
    else if b = INTERDOT_SECOND_BYTE ∨ b = 13 then
      validarMapaGo columnas rest contador
    else false

/-- Source `validar_mapa`. -/
def validar_mapa (bytes : List Nat) (columnas : Int) : Bool :=
  validarMapaGo columnas bytes 0

/-- Loop of `contar_filas`.  `n` is the fixed total length of the input and
`contador` the 1-based position, so `contador = n` marks the last byte; the
source also increments `filas` there when that byte is not a newline.  (The
source's `[bytes, &[b'\n']].concat();` on that branch discards its result
and is a no-op, so it has no counterpart here.) -/
def contarFilasGo (n : Nat) : List Nat → Nat → Int → Int
  | [], _, filas => filas
  | b :: rest, contador, filas =>
    contarFilasGo n rest (contador + 1)
      (if contador = n ∧ b ≠ 10 then (if b = 10 then filas + 1 else filas) + 1
       else (if b = 10 then filas + 1 else filas))

/-- Source `contar_filas`: one row per newline, plus one for a trailing
unterminated line. -/
def contar_filas (bytes : List Nat) : Int :=
  contarFilasGo bytes.length bytes 1 0

/-- Cell-pushing loop of `popular_desde_bytes`: `*` pushes `-1`, the first
interdot byte or `.` pushes `0`, everything else pushes nothing. -/
def popularValoresGo : List Nat → List Int → List Int
  | [], valores => valores
  | b :: rest, valores =>
    if b = ASTERISCO_BYTE then popularValoresGo rest (valores ++ [-1])
    else if b = INTERDOT_FIRST_BYTE ∨ b = DOT_BYTE then
      popularValoresGo rest (valores ++ [0])
    else popularValoresGo rest valores

/-- Error string returned by `popular_desde_bytes` (the only error the
function ever produces). -/
def mensajeError : String :=
  "Mapa invalido, debe ser cuadrado o rectangular y estar compuesto por “·” o “*”"

/-- Source `popular_desde_bytes`: compute `filas` and `columnas`, validate,
and on success push one value per symbol byte.  Returns the updated board
together with the `Result`. -/
def popular_desde_bytes (m : MatrizBuscaminas) (bytes : List Nat) :
    MatrizBuscaminas × Except String Unit :=
  let filas := contar_filas bytes
  let columnas := contar_columnas bytes
  if validar_mapa bytes columnas = false then
    ({ m with filas := filas, columnas := columnas }, Except.error mensajeError)
  else
    ({ m with filas := filas, columnas := columnas, valores := popularValoresGo bytes m.valores }, Except.ok ())

/-- Source `obtener_coordenadas`: row-major index to `(fila, columna)`. -/
def obtener_coordenadas (i col : Int) : Int × Int := (i / col, i % col)

/-- Source `aumentar_celda`: bounds-check a `(fila, columna)` pair and
increment that cell unless it is a mine. -/
def aumentar_celda (m : MatrizBuscaminas) (celda : Int × Int) : MatrizBuscaminas :=
  if celda.1 < 0 ∨ celda.1 ≥ m.filas ∨ celda.2 < 0 ∨ celda.2 ≥ m.columnas then m
  else
    let posicion := celda.1 * m.columnas + celda.2
    if m.valores.getD posicion.toNat 0 ≠ -1 then
      { m with valores :=
          m.valores.set posicion.toNat (m.valores.getD posicion.toNat 0 + 1) }
    else m

/-- Literal list of the 8 neighbour coordinates from `aumentar_adyacentes`. -/
def celdasAAumentar (coord : Int × Int) : List (Int × Int) :=
  [(coord.1 - 1, coord.2 - 1), (coord.1 - 1, coord.2), (coord.1 - 1, coord.2 + 1),
   (coord.1, coord.2 - 1), (coord.1, coord.2 + 1),
   (coord.1 + 1, coord.2 - 1), (coord.1 + 1, coord.2), (coord.1 + 1, coord.2 + 1)]

/-- Source `aumentar_adyacentes`: increment the 8 neighbours of index `i`. -/
def aumentar_adyacentes (m : MatrizBuscaminas) (i : Int) : MatrizBuscaminas :=
  (celdasAAumentar (obtener_coordenadas i m.columnas)).foldl aumentar_celda m

/-- Body of the `contar_bombas` loop at index `i`. -/
def pasoBomba (m : MatrizBuscaminas) (i : Nat) : MatrizBuscaminas :=
  if m.valores.getD i 0 = -1 then aumentar_adyacentes m (i : Int) else m

/-- Source `contar_bombas`: for each index holding `-1`, bump its
neighbours. -/
def contar_bombas (m : MatrizBuscaminas) : MatrizBuscaminas :=
  (List.range m.valores.length).foldl pasoBomba m

/-- Text printed for one cell value by `imprimir_como_buscaminas`. -/
def renderValor (v : Int) : String :=
  if v = -1 then "*" else if v = 0 then "·" else toString v

/-- Printing loop of `imprimir_como_buscaminas`: before each cell, emit a
newline and reset the column counter when it has reached `columnas`. -/
def imprimirGo (columnas : Int) : List Int → Int → String
  | [], _ => ""
  | v :: rest, contador =>
    if contador = columnas then
      "\n" ++ renderValor v ++ imprimirGo columnas rest 1
    else
      renderValor v ++ imprimirGo columnas rest (contador + 1)

/-- Source `imprimir_como_buscaminas` as the text it writes to stdout,
including the unconditional final `println!()`. -/
def imprimir_como_buscaminas (m : MatrizBuscaminas) : String :=
  imprimirGo m.columnas m.valores 0 ++ "\n"

/-! Specification-side helper definitions used to state the claims. -/

/-- Number of newline bytes in the input. -/
def cuentaSaltos : List Nat → Int
  | [] => 0
  | b :: rest => (if b = 10 then 1 else 0) + cuentaSaltos rest

/-- Whether a byte is one of the three counted symbol bytes (`·` first byte,
`*`, `.`). -/
def esSimbolo (b : Nat) : Bool :=
  decide (b = INTERDOT_FIRST_BYTE ∨ b = ASTERISCO_BYTE ∨ b = DOT_BYTE)

/-- Number of symbol bytes in the input. -/
def cuentaSimbolos : List Nat → Int
  | [] => 0
  | b :: rest => (if esSimbolo b then 1 else 0) + cuentaSimbolos rest

/-- Whether a byte belongs to the recognized input alphabet of
`validar_mapa` (symbols, newline, interdot second byte, carriage return). -/
def esReconocido (b : Nat) : Bool :=
  esSimbolo b || decide (b = 10) || decide (b = INTERDOT_SECOND_BYTE) || decide (b = 13)

/-- Modelled from the spec: the row-count formula claimed by C5 — newline
count, plus one exactly when the input does not end in a newline but still
has mine/empty symbols after the last newline. -/
def filasSegunSpec (bytes : List Nat) : Int :=
  cuentaSaltos bytes +
    (if bytes.getLast? ≠ some 10 ∧ (bytes.reverse.takeWhile (fun b => decide (b ≠ 10))).any esSimbolo
     then 1 else 0)

/-- Whether a `(fila, columna)` pair lies inside the board bounds, exactly
the test negated at the top of `aumentar_celda`. -/
def dentroB (filas columnas : Int) (p : Int × Int) : Bool :=
  decide (0 ≤ p.1) && decide (p.1 < filas) && decide (0 ≤ p.2) && decide (p.2 < columnas)

/-- Row-major index of a coordinate pair, as computed in `aumentar_celda`. -/
def idxDe (columnas : Int) (p : Int × Int) : Int := p.1 * columnas + p.2

/-- Whether coordinate pair `p` is in bounds and denotes cell index `j`. -/
def hitsB (filas columnas : Int) (p : Int × Int) (j : Nat) : Bool :=
  dentroB filas columnas p && decide (idxDe columnas p = (j : Int))

/-- The eight neighbour offsets of `aumentar_adyacentes` as deltas. -/
def deltas : List (Int × Int) :=
  [(-1, -1), (-1, 0), (-1, 1), (0, -1), (0, 1), (1, -1), (1, 0), (1, 1)]

/-- Whether the cell at coordinate pair `p` is an in-bounds mine of `m`. -/
def esMinaEn (m : MatrizBuscaminas) (p : Int × Int) : Bool :=
  dentroB m.filas m.columnas p &&
    decide (m.valores.getD (idxDe m.columnas p).toNat 0 = -1)

/-- Number of mines among the up-to-8 in-bounds neighbours of cell `j`,
with `j`'s row and column obtained as in `obtener_coordenadas`. -/
def cuentaMinasVecinas (m : MatrizBuscaminas) (j : Nat) : Nat :=
  ((celdasAAumentar (obtener_coordenadas (j : Int) m.columnas)).filter (esMinaEn m)).length

/-- Number of in-bounds mine neighbours of `j` whose index is below `k`:
the bumps cell `j` has received after the first `k` iterations of
`contar_bombas`. -/
def conteoParcial (v0 : List Int) (filas columnas : Int) (k j : Nat) : Nat :=
  ((celdasAAumentar (obtener_coordenadas (j : Int) columnas)).filter
    (fun p => dentroB filas columnas p && decide (idxDe columnas p < (k : Int)) &&
      decide (v0.getD (idxDe columnas p).toNat 0 = -1))).length

/-- Concatenation of a list of strings. -/
def concatLista : List String → String
  | [] => ""
  | s :: rest => s ++ concatLista rest

/-- The expected rendered lines of a board: row `r` is the chunk of `cols`
cell values starting at `r * cols`, each rendered with `renderValor`. -/
def lineasDe (m : MatrizBuscaminas) : List String :=
  (List.range m.filas.toNat).map (fun r =>
    concatLista (((m.valores.drop (r * m.columnas.toNat)).take m.columnas.toNat).map renderValor))

/-! Parsing lemmas. -/

/-- The column-counting loop never decreases its accumulator. -/
theorem contarColumnasGo_le (bytes : List Nat) : ∀ acc : Int, acc ≤ contarColumnasGo bytes acc := by
  induction bytes with
  | nil => intro acc; simp [contarColumnasGo]
  | cons b rest ih =>
    intro acc
    simp only [contarColumnasGo]
    split_ifs with h1 h2
    · exact le_refl acc
    · exact le_trans (by omega) (ih (acc + 1))
    · exact ih acc

/-- The computed column count is nonnegative. -/
theorem contar_columnas_nonneg (bytes : List Nat) : 0 ≤ contar_columnas bytes :=
  contarColumnasGo_le bytes 0

/-- Newline counts are nonnegative. -/
theorem cuentaSaltos_nonneg (bytes : List Nat) : 0 ≤ cuentaSaltos bytes := by
  induction bytes with
  | nil => simp [cuentaSaltos]
  | cons b rest ih => simp only [cuentaSaltos]; split_ifs <;> omega

/-- Characterization of the row-counting loop: rows = newlines, plus one
when the (nonempty) input does not end in a newline. -/
theorem contarFilasGo_spec (n : Nat) :
    ∀ (bytes : List Nat) (contador : Nat) (filas : Int),
      contador + bytes.length = n + 1 →
      contarFilasGo n bytes contador filas =
        filas + cuentaSaltos bytes +
          (if bytes ≠ [] ∧ bytes.getLast? ≠ some 10 then 1 else 0) := by
  intro bytes
  induction bytes with
  | nil => intro contador filas _; simp [contarFilasGo, cuentaSaltos]
  | cons b rest ih =>
    intro contador filas hpos
    match rest with
    | [] =>
      have hc : contador = n := by simpa using hpos
      by_cases hb : b = 10
      · simp [contarFilasGo, cuentaSaltos, hb, hc]
      · simp [contarFilasGo, cuentaSaltos, hb, hc]
    | c :: rest2 =>
      have hc : contador ≠ n := by simp at hpos; omega
      have hrec := ih (contador + 1) (if b = 10 then filas + 1 else filas) (by simp at hpos ⊢; omega)
      rw [contarFilasGo, if_neg (by simp [hc]), hrec]
      have hlast : (b :: c :: rest2).getLast? = (c :: rest2).getLast? := List.getLast?_cons_cons
      simp only [cuentaSaltos, hlast, ne_eq, reduceCtorEq, not_false_eq_true, true_and]
      split_ifs <;> omega

/-- The row count equals the newline count plus one for any nonempty input
not ending in a newline (regardless of what the trailing bytes are). -/
theorem contar_filas_caract (bytes : List Nat) :
    contar_filas bytes =
      cuentaSaltos bytes + (if bytes ≠ [] ∧ bytes.getLast? ≠ some 10 then 1 else 0) := by
  have := contarFilasGo_spec bytes.length bytes 1 0 (by omega)
  simpa [contar_filas] using this

/-- The computed row count is nonnegative. -/
theorem contar_filas_nonneg (bytes : List Nat) : 0 ≤ contar_filas bytes := by
  rw [contar_filas_caract]
  have := cuentaSaltos_nonneg bytes
  split_ifs <;> omega


/-- Accounting identity of a successful validation scan: the pending
counter plus the remaining symbols equal one full line per remaining
newline plus one full final line. -/
theorem validarMapaGo_sum (C : Int) :
    ∀ (bytes : List Nat) (contador : Int), validarMapaGo C bytes contador = true →
      contador + cuentaSimbolos bytes = C * cuentaSaltos bytes + C := by
  intro bytes
  induction bytes with
  | nil =>
    intro contador h
    simp [validarMapaGo] at h
    simp [cuentaSimbolos, cuentaSaltos, h]
  | cons b rest ih =>
    intro contador h
    rw [validarMapaGo] at h
    split_ifs at h with h1 h2 h3 h4
    · -- newline byte, counter matched
      have hrec := ih 0 h
      have hsym : esSimbolo b = false := by subst h1; rfl
      rw [cuentaSimbolos, cuentaSaltos, if_pos h1, if_neg (by simp [hsym]), mul_add, mul_one]
      omega
    · -- symbol byte
      have hrec := ih (contador + 1) h
      have hsym : esSimbolo b = true := by
        simp only [esSimbolo, decide_eq_true_eq]
        exact h3
      rw [cuentaSimbolos, cuentaSaltos, if_neg h1, if_pos (by simp [hsym])]
      simp only [zero_add]
      omega
    · -- skippable byte
      have hrec := ih contador h
      have hsym : esSimbolo b = false := by
        simp only [esSimbolo, decide_eq_false_iff_not]
        exact h3
      rw [cuentaSimbolos, cuentaSaltos, if_neg h1, if_neg (by simp [hsym])]
      simp only [zero_add]
      omega

/-- A successful validation of an input ending in a newline forces the
column count to be zero (the final empty segment must measure `columnas`). -/
theorem validarMapaGo_last10 (C : Int) :
    ∀ (bytes : List Nat) (contador : Int), validarMapaGo C bytes contador = true →
      bytes.getLast? = some 10 → C = 0 := by
  intro bytes
  induction bytes with
  | nil => intro contador _ hlast; simp at hlast
  | cons b rest ih =>
    intro contador h hlast
    rw [validarMapaGo] at h
    rcases rest with _ | ⟨c, rest2⟩
    · simp at hlast
      subst hlast
      rw [if_pos rfl] at h
      split_ifs at h with h1
      simp [validarMapaGo] at h
      omega
    · rw [List.getLast?_cons_cons] at hlast
      split_ifs at h with h1 h2 h3 h4
      · exact ih 0 h hlast
      · exact ih (contador + 1) h hlast
      · exact ih contador h hlast

/-- A successful validation scan only ever sees recognized bytes. -/
theorem validarMapaGo_reconocidos (C : Int) :
    ∀ (bytes : List Nat) (contador : Int), validarMapaGo C bytes contador = true →
      ∀ b ∈ bytes, esReconocido b = true := by
  intro bytes
  induction bytes with
  | nil => intro contador _ b hb; simp at hb
  | cons a rest ih =>
    intro contador h b hb
    rw [validarMapaGo] at h
    rcases List.mem_cons.mp hb with hb | hb
    · subst hb
      split_ifs at h with h1 h2 h3 h4
      · subst h1; rfl
      · have hsym : esSimbolo b = true := by
          simp only [esSimbolo, decide_eq_true_eq]
          exact h3
        simp [esReconocido, hsym]
      · rcases h4 with h4 | h4 <;> (subst h4; rfl)
    · split_ifs at h with h1 h2 h3 h4
      · exact ih 0 h b hb
      · exact ih (contador + 1) h b hb
      · exact ih contador h b hb

/-- If all bytes are skippable (interdot second byte or carriage return),
validation succeeds exactly when the pending counter equals `columnas`. -/
theorem validarMapaGo_saltables (C : Int) :
    ∀ (bytes : List Nat), (∀ b ∈ bytes, b = INTERDOT_SECOND_BYTE ∨ b = 13) →
      ∀ contador : Int, validarMapaGo C bytes contador = validarMapaGo C [] contador := by
  intro bytes
  induction bytes with
  | nil => intro _ contador; rfl
  | cons b rest ih =>
    intro hall contador
    have hb := hall b (by simp)
    have hrest : ∀ x ∈ rest, x = INTERDOT_SECOND_BYTE ∨ x = 13 := fun x hx => hall x (by simp [hx])
    have hb10 : ¬ b = 10 := by rcases hb with hb | hb <;> simp [hb, INTERDOT_SECOND_BYTE]
    have hbs : ¬ (b = INTERDOT_FIRST_BYTE ∨ b = ASTERISCO_BYTE ∨ b = DOT_BYTE) := by
      rcases hb with hb | hb <;>
        simp [hb, INTERDOT_SECOND_BYTE, INTERDOT_FIRST_BYTE, ASTERISCO_BYTE, DOT_BYTE]
    conv_lhs => rw [validarMapaGo]
    rw [if_neg hb10, if_neg hbs, if_pos hb]
    exact ih hrest contador

/-- Length of the populated cell list: one entry per symbol byte. -/
theorem popularValoresGo_length :
    ∀ (bytes : List Nat) (acc : List Int),
      ((popularValoresGo bytes acc).length : Int) = acc.length + cuentaSimbolos bytes := by
  intro bytes
  induction bytes with
  | nil => intro acc; simp [popularValoresGo, cuentaSimbolos]
  | cons b rest ih =>
    intro acc
    rw [popularValoresGo]
    split_ifs with h1 h2
    · have hsym : esSimbolo b = true := by
        simp only [esSimbolo, decide_eq_true_eq]
        exact Or.inr (Or.inl h1)
      rw [ih, cuentaSimbolos, if_pos (by simp [hsym])]
      simp
      omega
    · have hsym : esSimbolo b = true := by
        simp only [esSimbolo, decide_eq_true_eq]
        rcases h2 with h2 | h2
        · exact Or.inl h2
        · exact Or.inr (Or.inr h2)
      rw [ih, cuentaSimbolos, if_pos (by simp [hsym])]
      simp
      omega
    · have hsym : esSimbolo b = false := by
        simp only [esSimbolo, decide_eq_false_iff_not]
        intro hc
        rcases hc with hc | hc | hc
        · exact h2 (Or.inl hc)
        · exact h1 hc
        · exact h2 (Or.inr hc)
      rw [ih, cuentaSimbolos, if_neg (by simp [hsym])]
      omega

/-- Every populated cell value is a mine marker or a zero. -/
theorem popularValoresGo_mem :
    ∀ (bytes : List Nat) (acc : List Int) (x : Int),
      x ∈ popularValoresGo bytes acc → x ∈ acc ∨ x = -1 ∨ x = 0 := by
  intro bytes
  induction bytes with
  | nil => intro acc x hx; exact Or.inl hx
  | cons b rest ih =>
    intro acc x hx
    rw [popularValoresGo] at hx
    split_ifs at hx with h1 h2
    · rcases ih (acc ++ [-1]) x hx with hmem | hval
      · rcases List.mem_append.mp hmem with hmem | hmem
        · exact Or.inl hmem
        · simp at hmem; exact Or.inr (Or.inl hmem)
      · exact Or.inr hval
    · rcases ih (acc ++ [0]) x hx with hmem | hval
      · rcases List.mem_append.mp hmem with hmem | hmem
        · exact Or.inl hmem
        · simp at hmem; exact Or.inr (Or.inr hmem)
      · exact Or.inr hval
    · exact ih acc x hx

/-- Inversion of a successful `popular_desde_bytes` call on a fresh board:
validation succeeded and the fields are the three computed pieces. -/
theorem popular_ok_inv (bytes : List Nat) (m : MatrizBuscaminas)
    (h : popular_desde_bytes matrizNueva bytes = (m, Except.ok ())) :
    validar_mapa bytes (contar_columnas bytes) = true ∧
      m = { valores := popularValoresGo bytes [], columnas := contar_columnas bytes,
            filas := contar_filas bytes } := by
  rw [popular_desde_bytes] at h
  cases hval : validar_mapa bytes (contar_columnas bytes) with
  | false => rw [if_pos hval] at h; simp at h
  | true =>
    rw [if_neg (by simp [hval])] at h
    refine ⟨rfl, ?_⟩
    have hm := (Prod.mk.injEq _ _ _ _).mp h
    simpa [matrizNueva] using hm.1.symm

/-- Inversion of a failed `popular_desde_bytes` call on a fresh board. -/
theorem popular_err_inv (bytes : List Nat)
    (h : validar_mapa bytes (contar_columnas bytes) = false) :
    popular_desde_bytes matrizNueva bytes =
      ({ valores := [], columnas := contar_columnas bytes, filas := contar_filas bytes },
        Except.error mensajeError) := by
  rw [popular_desde_bytes, if_pos h]
  simp [matrizNueva]

/-- The first component of `popular_desde_bytes` always carries the two
computed dimensions, in both the success and the error case. -/
theorem popular_fst_dims (bytes : List Nat) :
    (popular_desde_bytes matrizNueva bytes).1.columnas = contar_columnas bytes ∧
      (popular_desde_bytes matrizNueva bytes).1.filas = contar_filas bytes := by
  rw [popular_desde_bytes]
  split_ifs <;> simp

/-- Fundamental size invariant: on success the number of populated cells is
`filas * columnas`. -/
theorem popular_ok_len (bytes : List Nat) (m : MatrizBuscaminas)
    (h : popular_desde_bytes matrizNueva bytes = (m, Except.ok ())) :
    (m.valores.length : Int) = m.filas * m.columnas := by
  obtain ⟨hval, hm⟩ := popular_ok_inv bytes m h
  subst hm
  have hsum := validarMapaGo_sum (contar_columnas bytes) bytes 0 hval
  have hlen := popularValoresGo_length bytes []
  have hfilas := contar_filas_caract bytes
  simp only [List.length_nil, Nat.cast_zero, zero_add] at hsum hlen
  by_cases hcond : bytes ≠ [] ∧ bytes.getLast? ≠ some 10
  · rw [if_pos hcond] at hfilas
    show ((popularValoresGo bytes []).length : Int) = contar_filas bytes * contar_columnas bytes
    rw [hlen, hfilas, hsum]
    ring
  · have hC0 : contar_columnas bytes = 0 := by
      rcases not_and_or.mp hcond with hb | hb
      · push_neg at hb
        subst hb
        simp [cuentaSaltos, cuentaSimbolos] at hsum
        omega
      · push_neg at hb
        exact validarMapaGo_last10 (contar_columnas bytes) bytes 0 hval hb
    show ((popularValoresGo bytes []).length : Int) = contar_filas bytes * contar_columnas bytes
    rw [hlen, hC0, mul_zero, hsum, hC0]
    ring

/-- In-bounds coordinates give an in-bounds row-major index. -/
theorem idx_lt_len (F C r c : Int) (hC : 0 ≤ C) (hr : 0 ≤ r) (hr2 : r < F)
    (hc : 0 ≤ c) (hc2 : c < C) (len : Nat) (hlen : (len : Int) = F * C) :
    (r * C + c).toNat < len := by
  have h2 : (r + 1) * C ≤ F * C := mul_le_mul_of_nonneg_right (by omega) hC
  rw [add_mul, one_mul] at h2
  have h0 : 0 ≤ r * C := mul_nonneg hr hC
  omega

/-- Claim C1: for every input on which `popular_desde_bytes` succeeds, the
populated board satisfies `cells.length = rows * cols` (the number of
pushed values equals `contar_filas` times `contar_columnas`). -/
theorem C1_cells_length (bytes : List Nat) (m : MatrizBuscaminas)
    (h : popular_desde_bytes matrizNueva bytes = (m, Except.ok ())) :
    (m.valores.length : Int) = m.filas * m.columnas :=
  popular_ok_len bytes m h

/-- Witness for C1 at the concrete input consisting of a single mine. -/
theorem C1_cells_length_witness :
    popular_desde_bytes matrizNueva [42] =
        ({ valores := [-1], columnas := 1, filas := 1 }, Except.ok ()) ∧
      ((({ valores := [-1], columnas := 1, filas := 1 } : MatrizBuscaminas).valores.length : Int) =
        ({ valores := [-1], columnas := 1, filas := 1 } : MatrizBuscaminas).filas *
          ({ valores := [-1], columnas := 1, filas := 1 } : MatrizBuscaminas).columnas) :=
  ⟨rfl, C1_cells_length [42] _ rfl⟩

/-- Claim C10: after a successful populate, the counting pass hits no
unguarded partial operation — a non-empty board has a positive column
count (so `obtener_coordenadas`'s division is well-defined) and every
bounds-checked index of `aumentar_celda` lies inside `valores`. -/
theorem C10_safety (bytes : List Nat) (m : MatrizBuscaminas)
    (h : popular_desde_bytes matrizNueva bytes = (m, Except.ok ())) :
    (m.valores ≠ [] → 0 < m.columnas) ∧
      ∀ r c : Int, 0 ≤ r → r < m.filas → 0 ≤ c → c < m.columnas →
        (r * m.columnas + c).toNat < m.valores.length := by
  have hlen := popular_ok_len bytes m h
  obtain ⟨hval, hm⟩ := popular_ok_inv bytes m h
  have hC : 0 ≤ m.columnas := by rw [hm]; exact contar_columnas_nonneg bytes
  constructor
  · intro hne
    have hpos : 0 < m.valores.length := List.length_pos.mpr hne
    by_contra hc
    have hC0 : m.columnas = 0 := by omega
    rw [hC0, mul_zero] at hlen
    omega
  · intro r c hr hr2 hcc hc2
    exact idx_lt_len m.filas m.columnas r c hC hr hr2 hcc hc2 m.valores.length hlen

/-- Witness for C10 at the single-mine input. -/
theorem C10_safety_witness :
    popular_desde_bytes matrizNueva [42] =
        ({ valores := [-1], columnas := 1, filas := 1 }, Except.ok ()) ∧
      ((({ valores := [-1], columnas := 1, filas := 1 } : MatrizBuscaminas).valores ≠ [] →
          0 < ({ valores := [-1], columnas := 1, filas := 1 } : MatrizBuscaminas).columnas) ∧
        ∀ r c : Int, 0 ≤ r → r < ({ valores := [-1], columnas := 1, filas := 1 } : MatrizBuscaminas).filas →
          0 ≤ c → c < ({ valores := [-1], columnas := 1, filas := 1 } : MatrizBuscaminas).columnas →
          (r * ({ valores := [-1], columnas := 1, filas := 1 } : MatrizBuscaminas).columnas + c).toNat <
            ({ valores := [-1], columnas := 1, filas := 1 } : MatrizBuscaminas).valores.length) :=
  ⟨rfl, C10_safety [42] _ rfl⟩

/-- Claim C7: when validation fails, `popular_desde_bytes` returns the
error, leaves the cells empty, and keeps the two computed dimensions. -/
theorem C7_error_state (bytes : List Nat)
    (h : validar_mapa bytes (contar_columnas bytes) = false) :
    popular_desde_bytes matrizNueva bytes =
      ({ valores := [], columnas := contar_columnas bytes, filas := contar_filas bytes },
        Except.error mensajeError) :=
  popular_err_inv bytes h

/-- Witness for C7 at the invalid single byte `x`. -/
theorem C7_error_state_witness :
    validar_mapa [120] (contar_columnas [120]) = false ∧
      popular_desde_bytes matrizNueva [120] =
        ({ valores := [], columnas := contar_columnas [120], filas := contar_filas [120] },
          Except.error mensajeError) :=
  ⟨rfl, C7_error_state [120] rfl⟩

/-- Claim C3, evaluated: on the spec's round-trip input `"*.*\n"` the code
does not succeed — `validar_mapa` also requires the empty segment after the
trailing newline to contain `columnas` symbols, so the populate call
returns the parse error (with `columnas = 3`, `filas = 1`, no cells)
instead of the claimed `Ok` with cells `[-1, 0, -1]`. -/
theorem C3_codigo_rechaza_la_entrada :
    popular_desde_bytes matrizNueva [42, 46, 42, 10] =
      ({ valores := [], columnas := 3, filas := 1 }, Except.error mensajeError) := rfl

/-- Claim C5, counterexample: on the single carriage-return input the code
counts one row, while the claimed formula (extra row only when mine/empty
symbols trail the last newline) counts zero. -/
theorem C5_counterexample :
    contar_filas [13] = 1 ∧ filasSegunSpec [13] = 0 ∧
      contar_filas [13] ≠ filasSegunSpec [13] := by decide

/-- Claim C5 (amended): the computed row count equals the number of
newline bytes, plus one exactly when the input is nonempty and does not
end with a newline — regardless of which bytes trail the last newline. -/
theorem C5_amended (bytes : List Nat) :
    contar_filas bytes =
      cuentaSaltos bytes + (if bytes ≠ [] ∧ bytes.getLast? ≠ some 10 then 1 else 0) :=
  contar_filas_caract bytes

/-- The column-counting loop ignores inputs without symbol bytes. -/
theorem contarColumnasGo_sin_simbolos :
    ∀ (bytes : List Nat), (∀ b ∈ bytes, esSimbolo b = false) →
      ∀ acc : Int, contarColumnasGo bytes acc = acc := by
  intro bytes
  induction bytes with
  | nil => intro _ acc; rfl
  | cons b rest ih =>
    intro hall acc
    have hb := hall b (by simp)
    have hbs : ¬ (b = INTERDOT_FIRST_BYTE ∨ b = ASTERISCO_BYTE ∨ b = DOT_BYTE) := by
      simpa [esSimbolo] using hb
    rw [contarColumnasGo]
    split_ifs with h1
    · rfl
    · exact ih (fun x hx => hall x (by simp [hx])) acc

/-- The populate loop pushes nothing on inputs without symbol bytes. -/
theorem popularValoresGo_sin_simbolos :
    ∀ (bytes : List Nat), (∀ b ∈ bytes, esSimbolo b = false) →
      ∀ acc : List Int, popularValoresGo bytes acc = acc := by
  intro bytes
  induction bytes with
  | nil => intro _ acc; rfl
  | cons b rest ih =>
    intro hall acc
    have hb := hall b (by simp)
    have hrest := fun x hx => hall x (List.mem_cons_of_mem b hx)
    have hb1 : ¬ b = ASTERISCO_BYTE := by
      intro hc; simp [esSimbolo, hc] at hb
    have hb2 : ¬ (b = INTERDOT_FIRST_BYTE ∨ b = DOT_BYTE) := by
      intro hc; rcases hc with hc | hc <;> simp [esSimbolo, hc] at hb
    rw [popularValoresGo, if_neg hb1, if_neg hb2]
    exact ih hrest acc

/-- Newline-free inputs have newline count zero. -/
theorem cuentaSaltos_sin_saltos :
    ∀ (bytes : List Nat), (∀ b ∈ bytes, b ≠ 10) → cuentaSaltos bytes = 0 := by
  intro bytes
  induction bytes with
  | nil => intro _; rfl
  | cons b rest ih =>
    intro hall
    rw [cuentaSaltos, if_neg (hall b (by simp)), ih (fun x hx => hall x (by simp [hx]))]
    ring

/-- Claim C6, counterexample: the single byte `x` contains no symbols and
no newlines, yet `popular_desde_bytes` reports the parse error instead of
succeeding with an empty board. -/
theorem C6_counterexample :
    (∀ b ∈ [(120 : Nat)], esSimbolo b = false ∧ b ≠ 10) ∧
      (popular_desde_bytes matrizNueva [120]).2 ≠ Except.ok () := by
  constructor
  · decide
  · rw [popular_err_inv [120] rfl]
    simp

/-- Claim C6 (amended): on an input with no symbol bytes and no newlines,
the populated board always has `columnas = 0` and no cells, the call
succeeds exactly when every byte is the interdot continuation byte or a
carriage return, and the row count is `0` for the empty input and `1`
otherwise. -/
theorem C6_amended (bytes : List Nat)
    (h : ∀ b ∈ bytes, esSimbolo b = false ∧ b ≠ 10) :
    (popular_desde_bytes matrizNueva bytes).1.columnas = 0 ∧
      (popular_desde_bytes matrizNueva bytes).1.valores = [] ∧
      ((popular_desde_bytes matrizNueva bytes).2 = Except.ok () ↔
        ∀ b ∈ bytes, b = INTERDOT_SECOND_BYTE ∨ b = 13) ∧
      (popular_desde_bytes matrizNueva bytes).1.filas = (if bytes = [] then 0 else 1) := by
  have hsin : ∀ b ∈ bytes, esSimbolo b = false := fun b hb => (h b hb).1
  have hnl : ∀ b ∈ bytes, b ≠ 10 := fun b hb => (h b hb).2
  have hC0 : contar_columnas bytes = 0 := contarColumnasGo_sin_simbolos bytes hsin 0
  have hfilas : contar_filas bytes = (if bytes = [] then 0 else 1) := by
    rw [contar_filas_caract, cuentaSaltos_sin_saltos bytes hnl]
    rcases bytes with _ | ⟨b, rest⟩
    · simp
    · have hlast10 : (b :: rest).getLast? ≠ some 10 := by
        intro hc
        have hmem : (10 : Nat) ∈ b :: rest := by
          exact List.mem_of_mem_getLast? hc
        exact hnl 10 hmem rfl
      simp [hlast10]
  refine ⟨?_, ?_, ?_, ?_⟩
  · rw [(popular_fst_dims bytes).1]
    exact hC0
  · rw [popular_desde_bytes]
    split_ifs with hval
    · simp [matrizNueva]
    · simp [matrizNueva, popularValoresGo_sin_simbolos bytes hsin]
  · constructor
    · intro hok b hb
      have hval : validar_mapa bytes (contar_columnas bytes) = true := by
        cases hval : validar_mapa bytes (contar_columnas bytes) with
        | false =>
          rw [popular_err_inv bytes hval] at hok
          simp at hok
        | true => rfl
      have hrec := validarMapaGo_reconocidos (contar_columnas bytes) bytes 0 hval b hb
      have hs := hsin b hb
      have h10 := hnl b hb
      simp only [esReconocido, hs, Bool.false_or, Bool.or_eq_true, decide_eq_true_eq] at hrec
      rcases hrec with (hrec | hrec) | hrec
      · exact absurd hrec h10
      · exact Or.inl hrec
      · exact Or.inr hrec
    · intro hall
      have hval : validar_mapa bytes (contar_columnas bytes) = true := by
        rw [validar_mapa, validarMapaGo_saltables (contar_columnas bytes) bytes hall 0]
        simp [validarMapaGo, hC0]
      rw [popular_desde_bytes, if_neg (by simp [hval])]
  · rw [(popular_fst_dims bytes).2]
    exact hfilas

/-- Witness for C6 at the concrete skippable input `[183, 13]`. -/
theorem C6_amended_witness :
    (∀ b ∈ [(183 : Nat), 13], esSimbolo b = false ∧ b ≠ 10) ∧
      ((popular_desde_bytes matrizNueva [183, 13]).1.columnas = 0 ∧
        (popular_desde_bytes matrizNueva [183, 13]).1.valores = [] ∧
        ((popular_desde_bytes matrizNueva [183, 13]).2 = Except.ok () ↔
          ∀ b ∈ [(183 : Nat), 13], b = INTERDOT_SECOND_BYTE ∨ b = 13) ∧
        (popular_desde_bytes matrizNueva [183, 13]).1.filas = (if ([(183 : Nat), 13] : List Nat) = [] then 0 else 1)) :=
  ⟨by decide, C6_amended [183, 13] (by decide)⟩

/-- Claim C8, counterexample: an invalid-character input and a
ragged-shape input produce one and the same error value — the two failure
kinds are not distinct and do not differ in message text. -/
theorem C8_counterexample :
    (popular_desde_bytes matrizNueva [120]).2 = Except.error mensajeError ∧
      (popular_desde_bytes matrizNueva [42, 10, 42, 42]).2 = Except.error mensajeError ∧
      (popular_desde_bytes matrizNueva [120]).2 =
        (popular_desde_bytes matrizNueva [42, 10, 42, 42]).2 :=
  ⟨rfl, rfl, rfl⟩

/-- Claim C8 (amended): an input containing a byte outside the recognized
set fails, and the concrete ragged input (row 1 has one symbol, row 2 has
two) fails, but both failures — and every failure of
`popular_desde_bytes` — return the one shared error value
`mensajeError`; the code does not distinguish the two kinds. -/
theorem C8_amended :
    (∀ (bytes : List Nat) (b : Nat), b ∈ bytes → esReconocido b = false →
        (popular_desde_bytes matrizNueva bytes).2 = Except.error mensajeError) ∧
      (popular_desde_bytes matrizNueva [42, 10, 42, 42]).2 = Except.error mensajeError ∧
      ∀ (bytes : List Nat) (e : String),
        (popular_desde_bytes matrizNueva bytes).2 = Except.error e → e = mensajeError := by
  refine ⟨?_, rfl, ?_⟩
  · intro bytes b hb hbad
    cases hval : validar_mapa bytes (contar_columnas bytes) with
    | false => rw [popular_err_inv bytes hval]
    | true =>
      have := validarMapaGo_reconocidos (contar_columnas bytes) bytes 0 hval b hb
      rw [hbad] at this
      exact absurd this (by simp)
  · intro bytes e h
    cases hval : validar_mapa bytes (contar_columnas bytes) with
    | false =>
      rw [popular_err_inv bytes hval] at h
      simpa using h.symm
    | true =>
      rw [popular_desde_bytes, if_neg (by simp [hval])] at h
      simp at h

/-- Witness for C8 at the invalid byte `x`. -/
theorem C8_amended_witness :
    (120 ∈ [(120 : Nat)]) ∧ esReconocido 120 = false ∧
      (popular_desde_bytes matrizNueva [120]).2 = Except.error mensajeError :=
  ⟨by decide, by decide, C8_amended.1 [120] 120 (by decide) (by decide)⟩

/-! Lemmas about the adjacency-counting pass. -/

/-- List access after `List.set` at the written index. -/
theorem getD_set_mismo (l : List Int) (n : Nat) (a : Int) (h : n < l.length) :
    (l.set n a).getD n 0 = a := by
  simp [List.getD_eq_getElem?_getD, List.getElem?_set_self h]

/-- List access after `List.set` at a different index. -/
theorem getD_set_otro (l : List Int) (n j : Nat) (a : Int) (h : n ≠ j) :
    (l.set n a).getD j 0 = l.getD j 0 := by
  simp [List.getD_eq_getElem?_getD, List.getElem?_set_ne h]

/-- An in-bounds coordinate pair has a nonnegative row-major index. -/
theorem idx_nonneg (F C : Int) (p : Int × Int) (h : dentroB F C p = true) :
    0 ≤ idxDe C p := by
  simp only [dentroB, Bool.and_eq_true, decide_eq_true_eq] at h
  obtain ⟨⟨⟨h1, h2⟩, h3⟩, h4⟩ := h
  have := mul_nonneg h1 (by omega : (0 : Int) ≤ C)
  simp only [idxDe]
  omega

/-- An in-bounds coordinate pair has index below `filas * columnas`. -/
theorem idx_lt_FC (F C : Int) (p : Int × Int) (h : dentroB F C p = true) :
    idxDe C p < F * C := by
  simp only [dentroB, Bool.and_eq_true, decide_eq_true_eq] at h
  obtain ⟨⟨⟨h1, h2⟩, h3⟩, h4⟩ := h
  have h5 : (p.1 + 1) * C ≤ F * C :=
    mul_le_mul_of_nonneg_right (by omega) (by omega : (0 : Int) ≤ C)
  rw [add_mul, one_mul] at h5
  simp only [idxDe]
  omega

/-- `aumentar_celda` never changes the dimensions or the cell count. -/
theorem aumentar_celda_campos (m : MatrizBuscaminas) (p : Int × Int) :
    (aumentar_celda m p).filas = m.filas ∧ (aumentar_celda m p).columnas = m.columnas ∧
      (aumentar_celda m p).valores.length = m.valores.length := by
  rw [aumentar_celda]
  dsimp only
  split_ifs <;> simp

/-- Effect of `aumentar_celda` on one cell: the cell gains one exactly when
the coordinate pair is the in-bounds address of that cell and the cell is
not a mine. -/
theorem aumentar_celda_getD (m : MatrizBuscaminas) (p : Int × Int) (j : Nat)
    (hidx : ∀ q : Int × Int, dentroB m.filas m.columnas q = true →
      (idxDe m.columnas q).toNat < m.valores.length) :
    (aumentar_celda m p).valores.getD j 0 =
      (if hitsB m.filas m.columnas p j = true ∧ m.valores.getD j 0 ≠ -1
       then m.valores.getD j 0 + 1 else m.valores.getD j 0) := by
  by_cases hout : p.1 < 0 ∨ p.1 ≥ m.filas ∨ p.2 < 0 ∨ p.2 ≥ m.columnas
  · have hd : dentroB m.filas m.columnas p = false := by
      rcases (Bool.eq_false_or_eq_true (dentroB m.filas m.columnas p)).symm with hd | hd
      · exact hd
      · exfalso
        simp only [dentroB, Bool.and_eq_true, decide_eq_true_eq] at hd
        obtain ⟨⟨⟨h1, h2⟩, h3⟩, h4⟩ := hd
        omega
    rw [aumentar_celda, if_pos hout, if_neg]
    rintro ⟨hh, -⟩
    rw [hitsB, hd] at hh
    simp at hh
  · have hdent : dentroB m.filas m.columnas p = true := by
      push_neg at hout
      simp only [dentroB, Bool.and_eq_true, decide_eq_true_eq]
      refine ⟨⟨⟨?_, ?_⟩, ?_⟩, ?_⟩ <;> omega
    have h0 : 0 ≤ idxDe m.columnas p := idx_nonneg _ _ _ hdent
    have hlt : (idxDe m.columnas p).toNat < m.valores.length := hidx p hdent
    simp only [idxDe] at h0 hlt
    rw [aumentar_celda, if_neg hout]
    dsimp only
    by_cases hpj : (p.1 * m.columnas + p.2).toNat = j
    · have hhit : hitsB m.filas m.columnas p j = true := by
        simp only [hitsB, hdent, Bool.true_and, decide_eq_true_eq, idxDe]
        omega
      by_cases hguard : m.valores.getD (p.1 * m.columnas + p.2).toNat 0 ≠ -1
      · rw [if_pos hguard]
        rw [hpj] at hguard hlt ⊢
        rw [getD_set_mismo _ _ _ hlt, if_pos ⟨hhit, hguard⟩]
      · rw [if_neg hguard]
        rw [hpj] at hguard
        rw [if_neg]
        rintro ⟨-, hne⟩
        exact hguard hne
    · have hmiss : ¬ (hitsB m.filas m.columnas p j = true ∧ m.valores.getD j 0 ≠ -1) := by
        rintro ⟨hh, -⟩
        simp only [hitsB, hdent, Bool.true_and, decide_eq_true_eq, idxDe] at hh
        omega
      rw [if_neg hmiss]
      by_cases hguard : m.valores.getD (p.1 * m.columnas + p.2).toNat 0 ≠ -1
      · rw [if_pos hguard]
        exact getD_set_otro _ _ _ _ hpj
      · rw [if_neg hguard]

/-- Folding `aumentar_celda` preserves dimensions and cell count. -/
theorem foldl_aumentar_campos :
    ∀ (L : List (Int × Int)) (m : MatrizBuscaminas),
      (L.foldl aumentar_celda m).filas = m.filas ∧
        (L.foldl aumentar_celda m).columnas = m.columnas ∧
        (L.foldl aumentar_celda m).valores.length = m.valores.length := by
  intro L
  induction L with
  | nil => intro m; exact ⟨rfl, rfl, rfl⟩
  | cons p L ih =>
    intro m
    obtain ⟨h1, h2, h3⟩ := ih (aumentar_celda m p)
    obtain ⟨g1, g2, g3⟩ := aumentar_celda_campos m p
    rw [List.foldl_cons]
    exact ⟨h1.trans g1, h2.trans g2, h3.trans g3⟩

/-- Effect of folding `aumentar_celda` over a list of coordinate pairs on
one cell: a mine cell is untouched, a non-mine cell gains one per pair in
the list that addresses it in bounds. -/
theorem foldl_aumentar_getD :
    ∀ (L : List (Int × Int)) (m : MatrizBuscaminas) (j : Nat),
      (∀ q : Int × Int, dentroB m.filas m.columnas q = true →
        (idxDe m.columnas q).toNat < m.valores.length) →
      (m.valores.getD j 0 = -1 ∨ 0 ≤ m.valores.getD j 0) →
      (L.foldl aumentar_celda m).valores.getD j 0 =
        (if m.valores.getD j 0 = -1 then (-1 : Int)
         else m.valores.getD j 0 +
           ((L.filter (fun p => hitsB m.filas m.columnas p j)).length : Int)) := by
  intro L
  induction L with
  | nil =>
    intro m j _ _
    rw [List.foldl_nil, List.filter_nil]
    split_ifs with hm
    · exact hm
    · simp
  | cons p L ih =>
    intro m j hidx hv
    rw [List.foldl_cons, List.filter_cons]
    obtain ⟨g1, g2, g3⟩ := aumentar_celda_campos m p
    have hstep := aumentar_celda_getD m p j hidx
    have hidx2 : ∀ q : Int × Int,
        dentroB (aumentar_celda m p).filas (aumentar_celda m p).columnas q = true →
        (idxDe (aumentar_celda m p).columnas q).toNat < (aumentar_celda m p).valores.length := by
      intro q hq
      rw [g1, g2] at hq
      rw [g2, g3]
      exact hidx q hq
    rcases hv with hm | hm
    · -- mine cell: nothing ever touches it
      have hstep2 : (aumentar_celda m p).valores.getD j 0 = -1 := by
        rw [hstep, if_neg]
        · exact hm
        · rintro ⟨-, hne⟩
          exact hne hm
      have := ih (aumentar_celda m p) j hidx2 (Or.inl hstep2)
      rw [this, if_pos hstep2, if_pos hm]
    · -- non-mine cell
      have hne : m.valores.getD j 0 ≠ -1 := by omega
      rw [if_neg hne]
      by_cases hhit : hitsB m.filas m.columnas p j = true
      · have hstep2 : (aumentar_celda m p).valores.getD j 0 = m.valores.getD j 0 + 1 := by
          rw [hstep, if_pos ⟨hhit, hne⟩]
        have hrec := ih (aumentar_celda m p) j hidx2 (Or.inr (by omega))
        rw [hrec, if_neg (by omega), hstep2]
        rw [g1, g2]
        rw [if_pos hhit]
        simp only [List.length_cons]
        push_cast
        ring
      · have hstep2 : (aumentar_celda m p).valores.getD j 0 = m.valores.getD j 0 := by
          rw [hstep, if_neg]
          rintro ⟨hh, -⟩
          exact hhit hh
        have hrec := ih (aumentar_celda m p) j hidx2 (Or.inr (by omega))
        rw [hrec, if_neg (by omega), hstep2]
        rw [g1, g2]
        rw [if_neg (by simpa using hhit)]

/-! Coordinate geometry of the eight neighbour offsets. -/

/-- Division/modulus facts for the coordinates of a cell index. -/
theorem coords_spec (F C : Int) (hC : 0 < C) (j : Nat) (hj : (j : Int) < F * C) :
    0 ≤ (j : Int) / C ∧ (j : Int) / C < F ∧ 0 ≤ (j : Int) % C ∧ (j : Int) % C < C ∧
      ((j : Int) / C) * C + (j : Int) % C = (j : Int) := by
  refine ⟨Int.ediv_nonneg (Nat.cast_nonneg j) (le_of_lt hC), ?_,
    Int.emod_nonneg _ (ne_of_gt hC), Int.emod_lt_of_pos _ hC, ?_⟩
  · rw [Int.ediv_lt_iff_lt_mul hC]
    exact hj
  · rw [mul_comm]
    exact Int.ediv_add_emod _ _

/-- Row-major indexing is injective on coordinates with the column in
range. -/
theorem idx_inj (C r1 c1 r2 c2 : Int) (hC : 0 < C) (h1 : 0 ≤ c1) (h1b : c1 < C)
    (h2 : 0 ≤ c2) (h2b : c2 < C) (h : r1 * C + c1 = r2 * C + c2) :
    r1 = r2 ∧ c1 = c2 := by
  have e1 : (r1 * C + c1) / C = r1 := by
    rw [add_comm, mul_comm r1 C, Int.add_mul_ediv_left c1 r1 (ne_of_gt hC),
      Int.ediv_eq_zero_of_lt h1 h1b, zero_add]
  have e2 : (r2 * C + c2) / C = r2 := by
    rw [add_comm, mul_comm r2 C, Int.add_mul_ediv_left c2 r2 (ne_of_gt hC),
      Int.ediv_eq_zero_of_lt h2 h2b, zero_add]
  have hr : r1 = r2 := by rw [← e1, ← e2, h]
  subst hr
  exact ⟨rfl, by omega⟩

/-- The literal neighbour list is the delta table shifted to the cell. -/
theorem celdasAAumentar_eq_map (r c : Int) :
    celdasAAumentar (r, c) = deltas.map (fun d => (r + d.1, c + d.2)) := by
  simp [celdasAAumentar, deltas, sub_eq_add_neg]

/-- A coordinate pair hits cell `w` exactly when it equals `w`'s (valid)
coordinates. -/
theorem hitsB_iff_coords (F C : Int) (hC : 0 < C) (w : Nat)
    (hw : (w : Int) < F * C) (p : Int × Int) :
    hitsB F C p w = true ↔ (p.1 = (w : Int) / C ∧ p.2 = (w : Int) % C) := by
  obtain ⟨hr0, hrF, hc0, hcC, hsum⟩ := coords_spec F C hC w hw
  constructor
  · intro h
    simp only [hitsB, dentroB, idxDe, Bool.and_eq_true, decide_eq_true_eq] at h
    obtain ⟨⟨⟨⟨ha, hb⟩, hc⟩, hd⟩, he⟩ := h
    exact idx_inj C p.1 p.2 ((w : Int) / C) ((w : Int) % C) hC hc hd hc0 hcC
      (by rw [he]; exact hsum.symm)
  · rintro ⟨h1, h2⟩
    simp only [hitsB, dentroB, idxDe, Bool.and_eq_true, decide_eq_true_eq]
    rw [h1, h2]
    exact ⟨⟨⟨⟨hr0, hrF⟩, hc0⟩, hcC⟩, hsum⟩

/-- Counting one concrete pair inside the duplicate-free delta table. -/
theorem filter_deltas_count (a b : Int) :
    (deltas.filter (fun d => decide (d.1 = a ∧ d.2 = b))).length =
      if (a, b) ∈ deltas then 1 else 0 := by
  by_cases h : (a, b) ∈ deltas
  · rw [if_pos h]
    simp only [deltas, List.mem_cons, List.not_mem_nil, or_false, Prod.mk.injEq] at h
    rcases h with ⟨h1, h2⟩ | ⟨h1, h2⟩ | ⟨h1, h2⟩ | ⟨h1, h2⟩ | ⟨h1, h2⟩ | ⟨h1, h2⟩ |
      ⟨h1, h2⟩ | ⟨h1, h2⟩ <;> (subst h1; subst h2; rfl)
  · rw [if_neg h, List.length_eq_zero, List.filter_eq_nil_iff]
    intro d hd
    simp only [deltas, List.mem_cons, List.not_mem_nil, or_false, Prod.mk.injEq, not_or] at h
    fin_cases hd <;> (simp only [decide_eq_true_eq]; omega)

set_option maxHeartbeats 1000000 in
/-- The delta table is closed under negation. -/
theorem deltas_mem_neg (a b : Int) : (a, b) ∈ deltas ↔ (-a, -b) ∈ deltas := by
  simp only [deltas, List.mem_cons, List.not_mem_nil, or_false, Prod.mk.injEq]
  omega

/-- How many of the eight neighbour pairs of cell `u` address cell `w`:
one when `w`'s coordinates differ from `u`'s by a delta, zero otherwise. -/
theorem filter_hits_offsets (F C : Int) (hC : 0 < C) (u w : Nat)
    (hw : (w : Int) < F * C) :
    ((celdasAAumentar (obtener_coordenadas (u : Int) C)).filter
        (fun p => hitsB F C p w)).length =
      (if ((w : Int) / C - (u : Int) / C, (w : Int) % C - (u : Int) % C) ∈ deltas
       then 1 else 0) := by
  rw [obtener_coordenadas, celdasAAumentar_eq_map, List.filter_map, List.length_map]
  have hpt : ∀ d ∈ deltas,
      ((fun p => hitsB F C p w) ∘ (fun d : Int × Int => ((u : Int) / C + d.1, (u : Int) % C + d.2))) d =
        decide (d.1 = (w : Int) / C - (u : Int) / C ∧ d.2 = (w : Int) % C - (u : Int) % C) := by
    intro d _
    simp only [Function.comp_apply]
    rw [Bool.eq_iff_iff, decide_eq_true_eq, hitsB_iff_coords F C hC w hw]
    constructor
    · rintro ⟨e1, e2⟩
      constructor <;> omega
    · rintro ⟨e1, e2⟩
      constructor <;> (simp only []; omega)
  rw [List.filter_congr hpt]
  exact filter_deltas_count _ _

/-- Splitting a bounded-index filter count at the new index. -/
theorem length_filter_lt_succ (L : List (Int × Int)) (A : Int × Int → Bool)
    (g : Int × Int → Int) (B : Int × Int → Bool) (k : Int) :
    (L.filter (fun p => A p && decide (g p < k + 1) && B p)).length =
      (L.filter (fun p => A p && decide (g p < k) && B p)).length +
        (L.filter (fun p => A p && decide (g p = k) && B p)).length := by
  induction L with
  | nil => rfl
  | cons p L ih =>
    simp only [List.filter_cons]
    by_cases hA : A p = true
    · by_cases hB : B p = true
      · simp only [hA, hB, Bool.true_and, Bool.and_true, decide_eq_true_eq]
        split_ifs with h1 h2 h3 <;> (try simp only [List.length_cons]) <;> omega
      · have hB2 : B p = false := by
          rcases Bool.eq_false_or_eq_true (B p) with h | h
          · exact absurd h hB
          · exact h
        simp only [hB2, Bool.and_false, Bool.false_eq_true, if_false]
        exact ih
    · have hA2 : A p = false := by
        rcases Bool.eq_false_or_eq_true (A p) with h | h
        · exact absurd h hA
        · exact h
      simp only [hA2, Bool.false_and, Bool.false_eq_true, if_false]
      exact ih

/-- No neighbour has been processed before the first loop iteration. -/
theorem conteoParcial_cero (v0 : List Int) (F C : Int) (j : Nat) :
    conteoParcial v0 F C 0 j = 0 := by
  rw [conteoParcial, List.length_eq_zero, List.filter_eq_nil_iff]
  intro p _
  by_cases hd : dentroB F C p = true
  · have h0 := idx_nonneg F C p hd
    simp only [hd, Bool.true_and, Nat.cast_zero, Bool.and_eq_true, decide_eq_true_eq, not_and]
    intro h
    omega
  · have hd2 : dentroB F C p = false := by
      revert hd
      cases dentroB F C p <;> simp
    simp [hd2]

/-- Processing mine `k` adds to cell `j`'s received count exactly the
indicator that `j` and `k` are adjacent. -/
theorem conteoParcial_succ_mina (v0 : List Int) (F C : Int) (hC : 0 < C) (k j : Nat)
    (hkF : (k : Int) < F * C) (hmine : v0.getD k 0 = -1) :
    conteoParcial v0 F C (k + 1) j =
      conteoParcial v0 F C k j +
        (if ((j : Int) / C - (k : Int) / C, (j : Int) % C - (k : Int) % C) ∈ deltas
         then 1 else 0) := by
  rw [conteoParcial, conteoParcial]
  push_cast
  rw [length_filter_lt_succ _ (dentroB F C) (idxDe C)
    (fun p => decide (v0.getD (idxDe C p).toNat 0 = -1)) ((k : Nat) : Int)]
  congr 1
  have hcongr : ∀ p ∈ celdasAAumentar (obtener_coordenadas (j : Int) C),
      (dentroB F C p && decide (idxDe C p = ((k : Nat) : Int)) &&
          decide (v0.getD (idxDe C p).toNat 0 = -1)) = hitsB F C p k := by
    intro p _
    by_cases hd : dentroB F C p = true
    · have h0 := idx_nonneg F C p hd
      by_cases he : idxDe C p = ((k : Nat) : Int)
      · have ht : (idxDe C p).toNat = k := by omega
        rw [hitsB, hd, ht, hmine, decide_eq_true he]
        rfl
      · rw [hitsB]
        simp [hd, he]
    · have hd2 : dentroB F C p = false := by
        revert hd
        cases dentroB F C p <;> simp
      rw [hitsB]
      simp [hd2]
  rw [List.filter_congr hcongr, filter_hits_offsets F C hC j k hkF]
  have hiff : (((k : Int) / C - (j : Int) / C, (k : Int) % C - (j : Int) % C) ∈ deltas) ↔
      (((j : Int) / C - (k : Int) / C, (j : Int) % C - (k : Int) % C) ∈ deltas) := by
    rw [deltas_mem_neg, neg_sub, neg_sub]
  exact if_congr hiff rfl rfl

/-- Processing a non-mine index leaves every received count unchanged. -/
theorem conteoParcial_succ_no_mina (v0 : List Int) (F C : Int) (k j : Nat)
    (hnm : v0.getD k 0 ≠ -1) :
    conteoParcial v0 F C (k + 1) j = conteoParcial v0 F C k j := by
  rw [conteoParcial, conteoParcial]
  push_cast
  rw [length_filter_lt_succ _ (dentroB F C) (idxDe C)
    (fun p => decide (v0.getD (idxDe C p).toNat 0 = -1)) ((k : Nat) : Int)]
  have hnil : (List.filter
      (fun p => dentroB F C p && decide (idxDe C p = ((k : Nat) : Int)) &&
        decide (v0.getD (idxDe C p).toNat 0 = -1))
      (celdasAAumentar (obtener_coordenadas (j : Int) C))) = [] := by
    rw [List.filter_eq_nil_iff]
    intro p _
    by_cases hd : dentroB F C p = true
    · have h0 := idx_nonneg F C p hd
      by_cases he : idxDe C p = ((k : Nat) : Int)
      · have ht : (idxDe C p).toNat = k := by omega
        rw [hd, ht, decide_eq_true he, decide_eq_false hnm]
        simp
      · simp [hd, he]
    · have hd2 : dentroB F C p = false := by
        revert hd
        cases dentroB F C p <;> simp
      simp [hd2]
  rw [hnil]
  simp

/-- Main loop invariant of `contar_bombas`: after the first `k` iterations
the dimensions and cell count are unchanged, mines still hold `-1`, and
every other cell holds its initial value plus one per already-processed
adjacent mine. -/
theorem contar_bombas_invariante (m : MatrizBuscaminas)
    (hC : 0 < m.columnas)
    (hlen : (m.valores.length : Int) = m.filas * m.columnas)
    (hvals : ∀ x ∈ m.valores, x = -1 ∨ x = 0) :
    ∀ k : Nat, k ≤ m.valores.length →
      ((List.range k).foldl pasoBomba m).filas = m.filas ∧
        ((List.range k).foldl pasoBomba m).columnas = m.columnas ∧
        ((List.range k).foldl pasoBomba m).valores.length = m.valores.length ∧
        ∀ j : Nat, j < m.valores.length →
          ((List.range k).foldl pasoBomba m).valores.getD j 0 =
            (if m.valores.getD j 0 = -1 then (-1 : Int)
             else m.valores.getD j 0 + (conteoParcial m.valores m.filas m.columnas k j : Int)) := by
  intro k
  induction k with
  | zero =>
    intro _
    refine ⟨rfl, rfl, rfl, ?_⟩
    intro j hj
    rw [List.range_zero, List.foldl_nil, conteoParcial_cero]
    split_ifs with hm
    · exact hm
    · simp
  | succ k ih =>
    intro hk1
    have hk : k < m.valores.length := by omega
    obtain ⟨hfil, hcol, hlen2, hval⟩ := ih (by omega)
    rw [List.range_succ, List.foldl_append, List.foldl_cons, List.foldl_nil]
    have hm_k_mem : m.valores.getD k 0 ∈ m.valores := by
      rw [List.getD_eq_getElem _ _ hk]
      exact List.getElem_mem hk
    have hm_k_val := hvals _ hm_k_mem
    have hmk_k := hval k hk
    have hkF : ((k : Nat) : Int) < m.filas * m.columnas := by omega
    by_cases hmine : m.valores.getD k 0 = -1
    · -- the k-th cell is a mine: its eight neighbours get bumped
      have hmkk : ((List.range k).foldl pasoBomba m).valores.getD k 0 = -1 := by
        rw [hmk_k, if_pos hmine]
      rw [pasoBomba, if_pos hmkk, aumentar_adyacentes, hcol]
      obtain ⟨f1, f2, f3⟩ := foldl_aumentar_campos
        (celdasAAumentar (obtener_coordenadas ((k : Nat) : Int) m.columnas))
        ((List.range k).foldl pasoBomba m)
      refine ⟨f1.trans hfil, f2.trans hcol, f3.trans hlen2, ?_⟩
      intro j hj
      have hjF : ((j : Nat) : Int) < m.filas * m.columnas := by omega
      have hidx : ∀ q : Int × Int,
          dentroB ((List.range k).foldl pasoBomba m).filas
              ((List.range k).foldl pasoBomba m).columnas q = true →
            (idxDe ((List.range k).foldl pasoBomba m).columnas q).toNat <
              ((List.range k).foldl pasoBomba m).valores.length := by
        intro q hq
        rw [hfil, hcol] at hq
        rw [hcol, hlen2]
        have h1 := idx_nonneg _ _ _ hq
        have h2 := idx_lt_FC _ _ _ hq
        omega
      have hcast : (0 : Int) ≤ (conteoParcial m.valores m.filas m.columnas k j : Int) :=
        Int.natCast_nonneg _
      have hv : ((List.range k).foldl pasoBomba m).valores.getD j 0 = -1 ∨
          0 ≤ ((List.range k).foldl pasoBomba m).valores.getD j 0 := by
        rw [hval j hj]
        split_ifs with h
        · exact Or.inl rfl
        · right
          have hjm : m.valores.getD j 0 ∈ m.valores := by
            rw [List.getD_eq_getElem _ _ hj]
            exact List.getElem_mem hj
          rcases hvals _ hjm with h2 | h2
          · exact absurd h2 h
          · rw [h2]
            omega
      have heff := foldl_aumentar_getD
        (celdasAAumentar (obtener_coordenadas ((k : Nat) : Int) m.columnas))
        ((List.range k).foldl pasoBomba m) j hidx hv
      rw [heff, hfil, hcol]
      by_cases hjmine : m.valores.getD j 0 = -1
      · have hXm : ((List.range k).foldl pasoBomba m).valores.getD j 0 = -1 := by
          rw [hval j hj, if_pos hjmine]
        rw [hXm, if_pos rfl, if_pos hjmine]
      · have hjm : m.valores.getD j 0 ∈ m.valores := by
          rw [List.getD_eq_getElem _ _ hj]
          exact List.getElem_mem hj
        have hj0 : m.valores.getD j 0 = 0 := by
          rcases hvals _ hjm with h2 | h2
          · exact absurd h2 hjmine
          · exact h2
        have hX : ((List.range k).foldl pasoBomba m).valores.getD j 0 =
            m.valores.getD j 0 + (conteoParcial m.valores m.filas m.columnas k j : Int) := by
          rw [hval j hj, if_neg hjmine]
        have hXne : ((List.range k).foldl pasoBomba m).valores.getD j 0 ≠ -1 := by
          rw [hX, hj0]
          omega
        rw [if_neg hXne, hX, if_neg hjmine]
        rw [filter_hits_offsets m.filas m.columnas hC k j hjF]
        rw [conteoParcial_succ_mina m.valores m.filas m.columnas hC k j hkF hmine]
        push_cast
        split_ifs <;> ring
    · -- the k-th cell is not a mine: the iteration is a no-op
      have hcast : (0 : Int) ≤ (conteoParcial m.valores m.filas m.columnas k k : Int) :=
        Int.natCast_nonneg _
      have hmkk : ¬ ((List.range k).foldl pasoBomba m).valores.getD k 0 = -1 := by
        rw [hmk_k, if_neg hmine]
        rcases hm_k_val with h2 | h2
        · exact absurd h2 hmine
        · rw [h2]
          omega
      rw [pasoBomba, if_neg hmkk]
      refine ⟨hfil, hcol, hlen2, ?_⟩
      intro j hj
      rw [hval j hj, conteoParcial_succ_no_mina m.valores m.filas m.columnas k j hmine]

/-- With the whole loop processed, the received count of cell `j` is
exactly its number of in-bounds mine neighbours. -/
theorem conteoParcial_total (m : MatrizBuscaminas)
    (hlen : (m.valores.length : Int) = m.filas * m.columnas) (j : Nat) :
    conteoParcial m.valores m.filas m.columnas m.valores.length j = cuentaMinasVecinas m j := by
  rw [conteoParcial, cuentaMinasVecinas]
  apply congrArg List.length
  apply List.filter_congr
  intro p _
  by_cases hd : dentroB m.filas m.columnas p = true
  · have h1 := idx_nonneg _ _ _ hd
    have h2 := idx_lt_FC _ _ _ hd
    have hlt : idxDe m.columnas p < (m.valores.length : Int) := by omega
    rw [esMinaEn, hd, decide_eq_true hlt]
    simp
  · have hd2 : dentroB m.filas m.columnas p = false := by
      rcases Bool.eq_false_or_eq_true (dentroB m.filas m.columnas p) with h | h
      · exact absurd h hd
      · exact h
    rw [esMinaEn, hd2]
    simp

/-- Claim C2: after `contar_bombas` on a successfully populated board,
every mine cell still holds `-1`, and every non-mine cell holds exactly
the number of mines among its up-to-8 in-bounds neighbours (rows and
columns obtained from the index as in `obtener_coordenadas`). -/
theorem C2_contar_bombas (bytes : List Nat) (m : MatrizBuscaminas)
    (h : popular_desde_bytes matrizNueva bytes = (m, Except.ok ())) :
    ∀ j : Nat, j < m.valores.length →
      (m.valores.getD j 0 = -1 → (contar_bombas m).valores.getD j 0 = -1) ∧
      (m.valores.getD j 0 ≠ -1 →
        (contar_bombas m).valores.getD j 0 = (cuentaMinasVecinas m j : Int)) := by
  intro j hj
  have hlen := popular_ok_len bytes m h
  obtain ⟨hval, hm⟩ := popular_ok_inv bytes m h
  have hC0 : 0 ≤ m.columnas := by rw [hm]; exact contar_columnas_nonneg bytes
  have hCpos : 0 < m.columnas := by
    by_contra hc
    have hzero : m.columnas = 0 := by omega
    rw [hzero, mul_zero] at hlen
    omega
  have hvals : ∀ x ∈ m.valores, x = -1 ∨ x = 0 := by
    intro x hx
    rw [hm] at hx
    rcases popularValoresGo_mem bytes [] x hx with h0 | h0
    · simp at h0
    · exact h0
  have hinv := contar_bombas_invariante m hCpos hlen hvals m.valores.length le_rfl
  rw [contar_bombas]
  constructor
  · intro hmine
    rw [hinv.2.2.2 j hj, if_pos hmine]
  · intro hmine
    rw [hinv.2.2.2 j hj, if_neg hmine]
    have hjm : m.valores.getD j 0 ∈ m.valores := by
      rw [List.getD_eq_getElem _ _ hj]
      exact List.getElem_mem hj
    have hj0 : m.valores.getD j 0 = 0 := by
      rcases hvals _ hjm with h2 | h2
      · exact absurd h2 hmine
      · exact h2
    rw [hj0, zero_add, conteoParcial_total m hlen j]

/-- Witness for C2 at the concrete input `"*.*"`. -/
theorem C2_contar_bombas_witness :
    popular_desde_bytes matrizNueva [42, 46, 42] =
        ({ valores := [-1, 0, -1], columnas := 3, filas := 1 }, Except.ok ()) ∧
      ∀ j : Nat,
        j < ({ valores := [-1, 0, -1], columnas := 3, filas := 1 } : MatrizBuscaminas).valores.length →
        (({ valores := [-1, 0, -1], columnas := 3, filas := 1 } : MatrizBuscaminas).valores.getD j 0 = -1 →
          (contar_bombas { valores := [-1, 0, -1], columnas := 3, filas := 1 }).valores.getD j 0 = -1) ∧
        (({ valores := [-1, 0, -1], columnas := 3, filas := 1 } : MatrizBuscaminas).valores.getD j 0 ≠ -1 →
          (contar_bombas { valores := [-1, 0, -1], columnas := 3, filas := 1 }).valores.getD j 0 =
            (cuentaMinasVecinas { valores := [-1, 0, -1], columnas := 3, filas := 1 } j : Int)) :=
  ⟨rfl, C2_contar_bombas [42, 46, 42] _ rfl⟩

/-- Range of the counted board's values: `-1` for mines, `0..8` counts
otherwise. -/
theorem contar_bombas_valores_rango (bytes : List Nat) (m : MatrizBuscaminas)
    (h : popular_desde_bytes matrizNueva bytes = (m, Except.ok ())) :
    ∀ x ∈ (contar_bombas m).valores, x = -1 ∨ (0 ≤ x ∧ x ≤ 8) := by
  intro x hx
  rcases Nat.eq_zero_or_pos m.valores.length with h0 | h0
  · have hmv : m.valores = [] := List.length_eq_zero.mp h0
    rw [contar_bombas] at hx
    simp [hmv] at hx
  · have hlen := popular_ok_len bytes m h
    obtain ⟨hval, hm⟩ := popular_ok_inv bytes m h
    have hC0 : 0 ≤ m.columnas := by rw [hm]; exact contar_columnas_nonneg bytes
    have hCpos : 0 < m.columnas := by
      by_contra hc
      have hzero : m.columnas = 0 := by omega
      rw [hzero, mul_zero] at hlen
      omega
    have hvals : ∀ y ∈ m.valores, y = -1 ∨ y = 0 := by
      intro y hy
      rw [hm] at hy
      rcases popularValoresGo_mem bytes [] y hy with hz | hz
      · simp at hz
      · exact hz
    have hinv := contar_bombas_invariante m hCpos hlen hvals m.valores.length le_rfl
    have hlen2 : (contar_bombas m).valores.length = m.valores.length := by
      rw [contar_bombas]
      exact hinv.2.2.1
    rcases List.mem_iff_getElem.mp hx with ⟨n, hn, hxn⟩
    have hn2 : n < m.valores.length := by omega
    have hxd : (contar_bombas m).valores.getD n 0 = x := by
      rw [List.getD_eq_getElem _ _ hn]
      exact hxn
    have hvaln : (contar_bombas m).valores.getD n 0 =
        (if m.valores.getD n 0 = -1 then (-1 : Int)
         else m.valores.getD n 0 + (conteoParcial m.valores m.filas m.columnas m.valores.length n : Int)) := by
      rw [contar_bombas]
      exact hinv.2.2.2 n hn2
    rw [hxd] at hvaln
    by_cases hmine : m.valores.getD n 0 = -1
    · rw [if_pos hmine] at hvaln
      exact Or.inl hvaln
    · rw [if_neg hmine] at hvaln
      have hnm : m.valores.getD n 0 ∈ m.valores := by
        rw [List.getD_eq_getElem _ _ hn2]
        exact List.getElem_mem hn2
      have hn0 : m.valores.getD n 0 = 0 := by
        rcases hvals _ hnm with h2 | h2
        · exact absurd h2 hmine
        · exact h2
      have hNle : conteoParcial m.valores m.filas m.columnas m.valores.length n ≤ 8 := by
        rw [conteoParcial]
        exact (List.length_filter_le _ _).trans (le_of_eq rfl)
      right
      rw [hvaln, hn0]
      constructor
      · omega
      · have : (conteoParcial m.valores m.filas m.columnas m.valores.length n : Int) ≤ 8 := by
          exact_mod_cast hNle
        omega

/-- Claim C9: after `contar_bombas` on a successfully populated board,
every cell value lies in `{-1} ∪ [0, 8]`, so single-digit rendering always
suffices. -/
theorem C9_rango (bytes : List Nat) (m : MatrizBuscaminas)
    (h : popular_desde_bytes matrizNueva bytes = (m, Except.ok ())) :
    ∀ x ∈ (contar_bombas m).valores, x = -1 ∨ (0 ≤ x ∧ x ≤ 8) :=
  contar_bombas_valores_rango bytes m h

/-- Witness for C9 at the concrete input `"*.*"`. -/
theorem C9_rango_witness :
    popular_desde_bytes matrizNueva [42, 46, 42] =
        ({ valores := [-1, 0, -1], columnas := 3, filas := 1 }, Except.ok ()) ∧
      ∀ x ∈ (contar_bombas { valores := [-1, 0, -1], columnas := 3, filas := 1 }).valores,
        x = -1 ∨ (0 ≤ x ∧ x ≤ 8) :=
  ⟨rfl, C9_rango [42, 46, 42] _ rfl⟩

/-! Lemmas about rendering. -/

/-- `pasoBomba` never changes the dimensions or the cell count. -/
theorem pasoBomba_campos (m : MatrizBuscaminas) (i : Nat) :
    (pasoBomba m i).filas = m.filas ∧ (pasoBomba m i).columnas = m.columnas ∧
      (pasoBomba m i).valores.length = m.valores.length := by
  rw [pasoBomba]
  split_ifs with h
  · rw [aumentar_adyacentes]
    exact foldl_aumentar_campos _ m
  · exact ⟨rfl, rfl, rfl⟩

/-- `contar_bombas` never changes the dimensions or the cell count. -/
theorem contar_bombas_campos (m : MatrizBuscaminas) :
    (contar_bombas m).filas = m.filas ∧ (contar_bombas m).columnas = m.columnas ∧
      (contar_bombas m).valores.length = m.valores.length := by
  rw [contar_bombas]
  generalize List.range m.valores.length = L
  induction L generalizing m with
  | nil => exact ⟨rfl, rfl, rfl⟩
  | cons i L ih =>
    obtain ⟨h1, h2, h3⟩ := ih (pasoBomba m i)
    obtain ⟨g1, g2, g3⟩ := pasoBomba_campos m i
    rw [List.foldl_cons]
    exact ⟨h1.trans g1, h2.trans g2, h3.trans g3⟩

/-- The length of a concatenation of one-character strings. -/
theorem concatLista_longitud_uno (L : List String) (h : ∀ s ∈ L, s.length = 1) :
    (concatLista L).length = L.length := by
  induction L with
  | nil => rfl
  | cons s L ih =>
    rw [concatLista, String.length_append, h s (by simp),
      ih (fun t ht => h t (by simp [ht])), List.length_cons]
    omega

/-- Every in-range cell value renders as a single character. -/
theorem renderValor_longitud (v : Int) (h : v = -1 ∨ (0 ≤ v ∧ v ≤ 8)) :
    (renderValor v).length = 1 := by
  rcases h with h | ⟨h1, h2⟩
  · rw [h]; rfl
  · interval_cases v <;> rfl

/-- Consuming one full row of cells inside the printing loop. -/
theorem imprimirGo_fila (C : Int) :
    ∀ (xs rest : List Int) (k : Int), k + xs.length = C →
      imprimirGo C (xs ++ rest) k = concatLista (xs.map renderValor) ++ imprimirGo C rest C := by
  intro xs
  induction xs with
  | nil =>
    intro rest k hlen
    simp only [List.length_nil, Nat.cast_zero, add_zero] at hlen
    subst hlen
    rw [List.nil_append, List.map_nil, concatLista]
    simp
  | cons v xs ih =>
    intro rest k hlen
    have hkC : k ≠ C := by
      simp only [List.length_cons] at hlen
      push_cast at hlen
      omega
    rw [List.cons_append, imprimirGo, if_neg hkC, List.map_cons, concatLista]
    rw [ih rest (k + 1) (by simp only [List.length_cons] at hlen; push_cast at hlen ⊢; omega)]
    rw [String.append_assoc]

/-- Between two rows the printing loop emits exactly one line break. -/
theorem imprimirGo_nueva_linea (C : Int) (hC : C ≠ 0) (rest : List Int) (hrest : rest ≠ []) :
    imprimirGo C rest C = "\n" ++ imprimirGo C rest 0 := by
  rcases rest with _ | ⟨v, rest⟩
  · exact absurd rfl hrest
  · rw [imprimirGo, if_pos rfl]
    conv_rhs => rw [imprimirGo]
    rw [if_neg (by omega : ¬(0 : Int) = C), zero_add, String.append_assoc]

/-- The printing loop on a board of `n` rows of `Cn` cells each produces
the `n` rendered rows, each followed by one line break. -/
theorem imprimirGo_filas (Cn : Nat) (hC : 0 < Cn) :
    ∀ (n : Nat) (v : List Int), 0 < n → v.length = n * Cn →
      imprimirGo (Cn : Int) v 0 ++ "\n" =
        concatLista ((List.range n).map (fun r =>
          concatLista (((v.drop (r * Cn)).take Cn).map renderValor) ++ "\n")) := by
  intro n
  induction n with
  | zero => intro v h0 _; exact absurd h0 (by omega)
  | succ n ih =>
    intro v hpos hlen
    have htlen : (v.take Cn).length = Cn := by
      rw [List.length_take, hlen, Nat.succ_mul]
      exact min_eq_left (Nat.le_add_left _ _)
    rcases Nat.eq_zero_or_pos n with hn | hn
    · subst hn
      have hvlen : v.length = Cn := by rw [hlen]; ring
      have hvtake : v.take Cn = v := by rw [← hvlen]; exact List.take_length v
      conv_lhs => rw [← List.append_nil v]
      rw [imprimirGo_fila (Cn : Int) v [] 0 (by rw [hvlen]; ring)]
      rw [show imprimirGo (Cn : Int) [] (Cn : Int) = "" from rfl]
      rw [show List.range 1 = [0] from by simp [List.range_succ]]
      simp only [List.map_cons, List.map_nil, concatLista, Nat.zero_mul,
        List.drop_zero, hvtake]
      simp
    · have hdlen : (v.drop Cn).length = n * Cn := by
        rw [List.length_drop, hlen, Nat.succ_mul]
        omega
      have hdne : v.drop Cn ≠ [] := by
        have hp : 0 < n * Cn := Nat.mul_pos hn hC
        intro hcontra
        rw [hcontra] at hdlen
        simp at hdlen
        omega
      conv_lhs => rw [← List.take_append_drop Cn v]
      rw [imprimirGo_fila (Cn : Int) (v.take Cn) (v.drop Cn) 0 (by rw [htlen]; ring)]
      rw [imprimirGo_nueva_linea (Cn : Int) (by exact_mod_cast hC.ne') (v.drop Cn) hdne]
      rw [String.append_assoc, String.append_assoc]
      rw [ih (v.drop Cn) hn hdlen]
      have hmap : (List.range n).map (fun r =>
            concatLista ((((v.drop Cn).drop (r * Cn)).take Cn).map renderValor) ++ "\n")
          = (List.range n).map ((fun r =>
            concatLista (((v.drop (r * Cn)).take Cn).map renderValor) ++ "\n") ∘ Nat.succ) := by
        apply List.map_congr_left
        intro r _
        simp only [Function.comp_apply]
        rw [List.drop_drop]
        rw [show Cn + r * Cn = Nat.succ r * Cn from by rw [Nat.succ_mul]; omega]
      rw [hmap, List.range_succ_eq_map, List.map_cons, concatLista, List.map_map]
      simp only [Nat.zero_mul, List.drop_zero]
      rw [String.append_assoc]

/-- Claim C4, counterexample: the empty input populates the empty board,
and rendering it produces a single line break — not empty output. -/
theorem C4_counterexample :
    popular_desde_bytes matrizNueva [] = (matrizNueva, Except.ok ()) ∧
      imprimir_como_buscaminas (contar_bombas matrizNueva) = "\n" ∧
      ("\n" : String) ≠ "" :=
  ⟨rfl, rfl, by decide⟩

/-- Claim C4 (amended): rendering a populated-and-counted board produces
one line of `cols` characters per row followed by a line break whenever
the board has at least one cell; a board with no cells (including the
0 by 0 board and the n by 0 boards) renders as one bare line break rather
than empty output. -/
theorem C4_render (bytes : List Nat) (m : MatrizBuscaminas)
    (h : popular_desde_bytes matrizNueva bytes = (m, Except.ok ())) :
    (lineasDe (contar_bombas m)).length = (contar_bombas m).filas.toNat ∧
      (m.valores ≠ [] →
        imprimir_como_buscaminas (contar_bombas m) =
          concatLista ((lineasDe (contar_bombas m)).map (fun s => s ++ "\n"))) ∧
      (m.valores ≠ [] →
        ∀ s ∈ lineasDe (contar_bombas m), s.length = (contar_bombas m).columnas.toNat) ∧
      (m.valores = [] → imprimir_como_buscaminas (contar_bombas m) = "\n") := by
  obtain ⟨hcf, hcc, hcl⟩ := contar_bombas_campos m
  have hlen := popular_ok_len bytes m h
  obtain ⟨hval, hm⟩ := popular_ok_inv bytes m h
  have hC0 : 0 ≤ m.columnas := by rw [hm]; exact contar_columnas_nonneg bytes
  have hF0 : 0 ≤ m.filas := by rw [hm]; exact contar_filas_nonneg bytes
  have hCcast : ((m.columnas.toNat : Nat) : Int) = m.columnas := Int.toNat_of_nonneg hC0
  refine ⟨?_, ?_, ?_, ?_⟩
  · rw [lineasDe, List.length_map, List.length_range]
  · intro hne
    have hvpos : 0 < m.valores.length := List.length_pos.mpr hne
    have hCpos : 0 < m.columnas := by
      by_contra hc
      have hzero : m.columnas = 0 := by omega
      rw [hzero, mul_zero] at hlen
      omega
    have hFpos : 0 < m.filas := by
      by_contra hc
      have hzero : m.filas = 0 := by omega
      rw [hzero, zero_mul] at hlen
      omega
    have hNat : m.valores.length = m.filas.toNat * m.columnas.toNat := by
      have hcast : ((m.filas.toNat * m.columnas.toNat : Nat) : Int) = m.filas * m.columnas := by
        push_cast
        rw [Int.toNat_of_nonneg hF0, Int.toNat_of_nonneg hC0]
      exact_mod_cast hlen.trans hcast.symm
    have hCn : 0 < m.columnas.toNat := by omega
    have hFn : 0 < m.filas.toNat := by omega
    have hbl : (contar_bombas m).valores.length = m.filas.toNat * m.columnas.toNat := by
      rw [hcl, hNat]
    have hmain := imprimirGo_filas m.columnas.toNat hCn m.filas.toNat
      (contar_bombas m).valores hFn hbl
    rw [imprimir_como_buscaminas, hcc, ← hCcast, hmain, lineasDe, hcf, hcc, List.map_map]
    rfl
  · intro hne s hs
    have hvpos : 0 < m.valores.length := List.length_pos.mpr hne
    have hCpos : 0 < m.columnas := by
      by_contra hc
      have hzero : m.columnas = 0 := by omega
      rw [hzero, mul_zero] at hlen
      omega
    have hNat : m.valores.length = m.filas.toNat * m.columnas.toNat := by
      have hcast : ((m.filas.toNat * m.columnas.toNat : Nat) : Int) = m.filas * m.columnas := by
        push_cast
        rw [Int.toNat_of_nonneg hF0, Int.toNat_of_nonneg hC0]
      exact_mod_cast hlen.trans hcast.symm
    rw [lineasDe] at hs
    rcases List.mem_map.mp hs with ⟨r, hr, hsr⟩
    rw [List.mem_range, hcf] at hr
    have hchunk : (((contar_bombas m).valores.drop (r * (contar_bombas m).columnas.toNat)).take
        (contar_bombas m).columnas.toNat).length = (contar_bombas m).columnas.toNat := by
      rw [List.length_take, List.length_drop, hcc, hcl, hNat]
      have hmul : (r + 1) * m.columnas.toNat ≤ m.filas.toNat * m.columnas.toNat :=
        Nat.mul_le_mul_right _ (by omega)
      rw [Nat.add_mul, Nat.one_mul] at hmul
      exact min_eq_left (by omega)
    have harg : ∀ t ∈ (((contar_bombas m).valores.drop
          (r * (contar_bombas m).columnas.toNat)).take
          (contar_bombas m).columnas.toNat).map renderValor, t.length = 1 := by
      intro t ht
      rcases List.mem_map.mp ht with ⟨x, hx, hxt⟩
      have hxv : x ∈ (contar_bombas m).valores :=
        List.mem_of_mem_drop (List.mem_of_mem_take hx)
      rw [← hxt]
      exact renderValor_longitud x (contar_bombas_valores_rango bytes m h x hxv)
    rw [← hsr, concatLista_longitud_uno _ harg, List.length_map, hchunk]
  · intro hmv
    have hcb : contar_bombas m = m := by
      rw [contar_bombas, hmv]
      rfl
    rw [hcb, imprimir_como_buscaminas, hmv]
    rw [show imprimirGo m.columnas [] 0 = "" from rfl]
    simp

/-- Witness for C4 at the concrete input `"*.*"`. -/
theorem C4_render_witness :
    popular_desde_bytes matrizNueva [42, 46, 42] =
        ({ valores := [-1, 0, -1], columnas := 3, filas := 1 }, Except.ok ()) ∧
      ((lineasDe (contar_bombas { valores := [-1, 0, -1], columnas := 3, filas := 1 })).length =
          (contar_bombas { valores := [-1, 0, -1], columnas := 3, filas := 1 }).filas.toNat ∧
        (({ valores := [-1, 0, -1], columnas := 3, filas := 1 } : MatrizBuscaminas).valores ≠ [] →
          imprimir_como_buscaminas (contar_bombas { valores := [-1, 0, -1], columnas := 3, filas := 1 }) =
            concatLista ((lineasDe (contar_bombas { valores := [-1, 0, -1], columnas := 3, filas := 1 })).map
              (fun s => s ++ "\n"))) ∧
        (({ valores := [-1, 0, -1], columnas := 3, filas := 1 } : MatrizBuscaminas).valores ≠ [] →
          ∀ s ∈ lineasDe (contar_bombas { valores := [-1, 0, -1], columnas := 3, filas := 1 }),
            s.length = (contar_bombas { valores := [-1, 0, -1], columnas := 3, filas := 1 }).columnas.toNat) ∧
        (({ valores := [-1, 0, -1], columnas := 3, filas := 1 } : MatrizBuscaminas).valores = [] →
          imprimir_como_buscaminas (contar_bombas { valores := [-1, 0, -1], columnas := 3, filas := 1 }) = "\n")) :=
  ⟨rfl, C4_render [42, 46, 42] _ rfl⟩
